import Mathlib

/-!
Shallow embedding of the markdown parser in
`src/components/cells/MarkdownCell.tsx` (the `lib/markdown` module) of
junodeck/notebook-renderer, together with proofs about the claims of the
specification.  Strings are modelled as `List Char` internally (matching the
kernel model of `String`), and each regex-driven stage of the source is
translated into an executable scanner with the exact match semantics of the
JavaScript regular expression it embeds (leftmost match, greedy/lazy
quantifiers, advance-by-one on failure, replacement not rescanned).
Recursive scanners take an explicit fuel argument (always instantiated with
`length + 1` by the wrappers, which is sufficient since every step consumes
at least one character); exhausted fuel returns the remaining text
unchanged, so that the pass-through lemmas hold for every fuel value.
-/

set_option maxRecDepth 8000

namespace NotebookMd

/-- JavaScript `\s` (ASCII range): space, tab, newline, carriage return,
vertical tab, form feed. -/
def isWsChar (c : Char) : Bool :=
  c = ' ' || c = '\t' || c = '\n' || c = '\r' || c = '\x0b' || c = '\x0c'

/-- JavaScript `\w`: ASCII letters, digits and underscore. -/
def isWordChar (c : Char) : Bool :=
  ('a' ≤ c && c ≤ 'z') || ('A' ≤ c && c ≤ 'Z') || ('0' ≤ c && c ≤ '9') || c = '_'

/-- The backtick character (code 96). -/
def btick : Char := Char.ofNat 96

/-- The single-quote character (code 39). -/
def squote : Char := Char.ofNat 39

/-- JavaScript `String.prototype.trim` on a character list. -/
def trimL (l : List Char) : List Char :=
  ((l.dropWhile isWsChar).reverse.dropWhile isWsChar).reverse

/-- `String.prototype.split(sep)` for a single-character separator:
accumulator-based splitter producing the (possibly empty) pieces. -/
def splitChAux (sep : Char) (acc : List Char) : List Char → List (List Char)
  | [] => [acc.reverse]
  | c :: rest =>
      if c = sep then acc.reverse :: splitChAux sep [] rest
      else splitChAux sep (c :: acc) rest

/-- `text.split(sep)` (JavaScript semantics: keeps empty pieces). -/
def splitCh (sep : Char) (l : List Char) : List (List Char) :=
  splitChAux sep [] l

/-- `pieces.join(sep)` for a single-character separator. -/
def joinCh (sep : Char) : List (List Char) → List Char
  | [] => []
  | [l] => l
  | l :: l2 :: ls => l ++ sep :: joinCh sep (l2 :: ls)

/-- `pieces.join(sep)` for a string separator. -/
def joinSep (sep : List Char) : List (List Char) → List Char
  | [] => []
  | [l] => l
  | l :: l2 :: ls => l ++ sep ++ joinSep sep (l2 :: ls)

/-- `escapeHtml`'s per-character table: `& < > " '` to their entities
(`htmlEscapes` in the source). -/
def escapeHtmlChar (c : Char) : List Char :=
  if c = '&' then "&amp;".data
  else if c = '<' then "&lt;".data
  else if c = '>' then "&gt;".data
  else if c = '"' then "&quot;".data
  else if c = squote then "&#39;".data
  else [c]

/-- `text.replace(/[&<>"']/g, m => htmlEscapes[m] || m)` on a character
list: since the pattern is a single-character class, the global replace is a
per-character map. -/
def escapeHtmlL : List Char → List Char
  | [] => []
  | c :: rest => escapeHtmlChar c ++ escapeHtmlL rest

/-- `escapeHtml(text)`: escape HTML characters to prevent XSS attacks. -/
def escapeHtml (text : String) : String :=
  ⟨escapeHtmlL text.data⟩

/-- Collapse each maximal run of characters satisfying `p` into the single
replacement character `rep` (the effect of `replace(/p+/g, rep)`).  The
`inRun` flag records whether the previous character was part of a run. -/
def collapseRunsAux (p : Char → Bool) (rep : Char) (inRun : Bool) :
    List Char → List Char
  | [] => []
  | c :: rest =>
      if p c then
        if inRun then collapseRunsAux p rep true rest
        else rep :: collapseRunsAux p rep true rest
      else c :: collapseRunsAux p rep false rest

/-- Remove one copy of `c` at the head, if present (`replace(/^c/, "")`). -/
def dropOneLead (c : Char) (l : List Char) : List Char :=
  if l.take 1 = [c] then l.drop 1 else l

/-- `replace(/^-|-$/g, "")`: with the `g` flag this removes one leading
hyphen and then one trailing hyphen of what remains. -/
def stripEdgeHyphens (l : List Char) : List Char :=
  ((dropOneLead '-' ((dropOneLead '-' l).reverse)).reverse)

/-- Characters kept by `replace(/[^\w\s-]/g, "")`. -/
def keepIdChar (c : Char) : Bool := isWordChar c || isWsChar c || c = '-'

/-- `generateId(text)`: lowercase, strip special characters, whitespace runs
to hyphens, collapse hyphen runs, strip leading/trailing hyphens. -/
def generateId (text : String) : String :=
  ⟨stripEdgeHyphens
    (collapseRunsAux (fun c => c = '-') '-' false
      (collapseRunsAux isWsChar '-' false
        ((text.data.map Char.toLower).filter keepIdChar)))⟩

/-- `MarkdownParseOptions` (all fields present; the source merges caller
options with these defaults).  The source field `classPrefix` is named
`classPfx` here. -/
structure MarkdownParseOptions where
  sanitize : Bool := true
  linksInNewTab : Bool := true
  classPfx : String := "nb-md"
  gfm : Bool := true
  math : Bool := false
deriving DecidableEq, Repr

/-- An entry of `metadata.headings`. -/
structure Heading where
  level : Nat
  text : String
  id : String
deriving DecidableEq, Repr

/-- An entry of `metadata.links`. -/
structure LinkEntry where
  text : String
  url : String
  title : Option String
deriving DecidableEq, Repr

/-- An entry of `metadata.images`. -/
structure ImageEntry where
  alt : String
  src : String
  title : Option String
deriving DecidableEq, Repr

/-- An entry of `metadata.codeBlocks`. -/
structure CodeBlock where
  language : Option String
  code : String
deriving DecidableEq, Repr

/-- `ParsedMarkdown.metadata`. -/
structure MarkdownMetadata where
  headings : List Heading
  links : List LinkEntry
  images : List ImageEntry
  codeBlocks : List CodeBlock
deriving DecidableEq, Repr

/-- The result of `parseMarkdown`. -/
structure ParsedMarkdown where
  html : String
  metadata : MarkdownMetadata
deriving DecidableEq, Repr

/-- `options.classPrefix || "nb-md"`: the per-stage class-prefix fallback
(the empty string is falsy in JavaScript). -/
def pxOf (opts : MarkdownParseOptions) : List Char :=
  if opts.classPfx = "" then "nb-md".data else opts.classPfx.data

/-! ### Stage 1: `parseCode` — fenced code blocks and inline code

Fenced blocks: `text.replace(/```(\w+)?\n?([\s\S]*?)```/g, ...)`.
The opener is three backticks, the language is a greedy run of word
characters, an optional newline follows, and the lazy body extends to the
earliest subsequent triple backtick.  If no closing fence exists the match
fails at this position and the engine advances one character. -/

/-- Find the earliest occurrence of a closing triple backtick; returns the
(lazy) body before it and the text after it. -/
def findFenceClose : List Char → Option (List Char × List Char)
  | [] => none
  | c :: rest =>
      if c = btick ∧ rest.take 2 = [btick, btick] then some ([], rest.drop 2)
      else
        match findFenceClose rest with
        | some r => some (c :: r.1, r.2)
        | none => none

/-- The fenced-code-block `<pre><code>` replacement string. -/
def fencedTag (px lang code : List Char) : List Char :=
  "<pre class=\"".data ++ px ++ "-code-block\"><code class=\"".data ++ px ++
    "-code".data ++
    (if lang = [] then [] else " language-".data ++ lang) ++ "\">".data ++
    escapeHtmlL code ++ "</code></pre>".data

/-- Global-replace scanner for the fenced-code-block regex, also collecting
the `codeBlocks` metadata entries in source order. -/
def fencedAux (px : List Char) : Nat → List Char → List Char × List CodeBlock
  | 0, l => (l, [])
  | _ + 1, [] => ([], [])
  | f + 1, c :: rest =>
      if c = btick ∧ rest.take 2 = [btick, btick] then
        let rest2 := rest.drop 2
        let lang := rest2.takeWhile isWordChar
        let rest3 := rest2.dropWhile isWordChar
        let rest4 := if rest3.take 1 = ['\n'] then rest3.drop 1 else rest3
        match findFenceClose rest4 with
        | some br =>
            let code := trimL br.1
            let r := fencedAux px f br.2
            (fencedTag px lang code ++ r.1,
              ⟨if lang = [] then none else some ⟨lang⟩, ⟨code⟩⟩ :: r.2)
        | none =>
            let r := fencedAux px f rest
            (c :: r.1, r.2)
      else
        let r := fencedAux px f rest
        (c :: r.1, r.2)

/-- Inline code: `replace(/`([^`]+)`/g, '<code class="px-inline-code">$1</code>')`.
The span content is inserted raw (`$1` — no HTML escaping). -/
def inlineAux (px : List Char) : Nat → List Char → List Char
  | 0, l => l
  | _ + 1, [] => []
  | f + 1, c :: rest =>
      if c = btick then
        let content := rest.takeWhile (fun x => x ≠ btick)
        let rest2 := rest.dropWhile (fun x => x ≠ btick)
        if content ≠ [] ∧ rest2.take 1 = [btick] then
          "<code class=\"".data ++ px ++ "-inline-code\">".data ++ content ++
            "</code>".data ++ inlineAux px f (rest2.drop 1)
        else c :: inlineAux px f rest
      else c :: inlineAux px f rest

/-- The inline-code pass over a whole text. -/
def inlineCodePass (px : List Char) (l : List Char) : List Char :=
  inlineAux px (l.length + 1) l

/-- `parseCode(text, options)`: fenced blocks first (collecting
`codeBlocks`), then inline code. -/
def parseCode (text : List Char) (opts : MarkdownParseOptions) :
    List Char × List CodeBlock :=
  let px := pxOf opts
  let r := fencedAux px (text.length + 1) text
  (inlineCodePass px r.1, r.2)

/-! ### Stage 2: `parseHeaders` — `replace(/^(#{1,6})\s+(.+)$/gm, ...)`

A match starts at a line start: 1–6 `#`, a greedy nonempty whitespace run
(`\s` includes newlines, so the run may cross blank lines), then a nonempty
lazy-free `(.+)` capture (no newline) ending at a line end.  When only
whitespace follows the hashes, the greedy `\s+` backtracks minimally,
leaving the last non-newline whitespace character as the capture.  The
emitted heading text is the trimmed capture. -/

/-- The largest index of `l` holding a character other than `\n`. -/
def lastNonNl (l : List Char) : Option Nat :=
  match l.reverse.findIdx? (fun c => c ≠ '\n') with
  | some i => some (l.length - 1 - i)
  | none => none

/-- The largest index of `l` holding `\n`. -/
def lastNl (l : List Char) : Option Nat :=
  match l.reverse.findIdx? (fun c => c = '\n') with
  | some i => some (l.length - 1 - i)
  | none => none

/-- Try the header regex at a line start; returns the level, the raw
capture, and the text after the match (positioned at a line end). -/
def headerTry (l : List Char) : Option (Nat × List Char × List Char) :=
  let n := (l.takeWhile (fun c => c = '#')).length
  if 1 ≤ n ∧ n ≤ 6 then
    let r := l.drop n
    let w := r.takeWhile isWsChar
    if w = [] then none
    else
      let rest0 := r.drop w.length
      let c0 := rest0.takeWhile (fun c => c ≠ '\n')
      if c0 ≠ [] then some (n, c0, rest0.drop c0.length)
      else
        match lastNonNl w with
        | some k => if 1 ≤ k then some (n, (r.drop k).take 1, r.drop (k + 1)) else none
        | none => none
  else none

/-- The `<hN id=... class=...>` replacement for a header match. -/
def headerTag (px : List Char) (n : Nat) (clean : List Char) (idStr : String) :
    List Char :=
  "<h".data ++ (Nat.repr n).data ++ " id=\"".data ++ idStr.data ++
    "\" class=\"".data ++ px ++ "-h".data ++ (Nat.repr n).data ++ "\">".data ++
    clean ++ "</h".data ++ (Nat.repr n).data ++ ">".data

/-- Global scanner for the header regex; `atStart` records whether the
current position is a line start (where `^` can match). -/
def headersAux (px : List Char) : Nat → Bool → List Char → List Char × List Heading
  | 0, _, l => (l, [])
  | _ + 1, _, [] => ([], [])
  | f + 1, atStart, c :: rest =>
      if atStart then
        match headerTry (c :: rest) with
        | some m =>
            let clean := trimL m.2.1
            let idStr := generateId ⟨clean⟩
            let r := headersAux px f false m.2.2
            (headerTag px m.1 clean idStr ++ r.1, ⟨m.1, ⟨clean⟩, idStr⟩ :: r.2)
        | none =>
            let r := headersAux px f (c = '\n') rest
            (c :: r.1, r.2)
      else
        let r := headersAux px f (c = '\n') rest
        (c :: r.1, r.2)

/-- `parseHeaders(text, options)`. -/
def parseHeaders (text : List Char) (opts : MarkdownParseOptions) :
    List Char × List Heading :=
  headersAux (pxOf opts) (text.length + 1) true text

/-! ### Stage 3: `parseHorizontalRules` —
`replace(/^(\s*)([-*_])\s*\2\s*\2[\s-*_]*$/gm, '$1<hr class="px-hr">')`

All the `\s` runs may contain newlines; the trailing class run is consumed
greedily and backtracks to the last position where `$` (end of string or
before a newline) holds. -/

/-- A horizontal-rule marker character. -/
def hrMark (c : Char) : Bool := c = '-' || c = '*' || c = '_'

/-- Try the rule regex at a line start; returns the captured leading
whitespace and the text after the match (positioned at a line end). -/
def hrTry (l : List Char) : Option (List Char × List Char) :=
  let ws1 := l.takeWhile isWsChar
  match l.dropWhile isWsChar with
  | c :: r1 =>
      if hrMark c then
        match (r1.dropWhile isWsChar) with
        | c2 :: r2 =>
            if c2 = c then
              match (r2.dropWhile isWsChar) with
              | c3 :: r3 =>
                  if c3 = c then
                    let run := r3.takeWhile (fun x => isWsChar x || hrMark x)
                    if r3.drop run.length = [] then some (ws1, [])
                    else
                      match lastNl run with
                      | some k => some (ws1, r3.drop k)
                      | none => none
                  else none
              | [] => none
            else none
        | [] => none
      else none
  | [] => none

/-- Global scanner for the rule regex. -/
def hrAux (px : List Char) : Nat → Bool → List Char → List Char
  | 0, _, l => l
  | _ + 1, _, [] => []
  | f + 1, atStart, c :: rest =>
      if atStart then
        match hrTry (c :: rest) with
        | some m => m.1 ++ "<hr class=\"".data ++ px ++ "-hr\">".data ++
            hrAux px f false m.2
        | none => c :: hrAux px f (c = '\n') rest
      else c :: hrAux px f (c = '\n') rest

/-- `parseHorizontalRules(text, options)`. -/
def parseHorizontalRules (text : List Char) (opts : MarkdownParseOptions) :
    List Char :=
  hrAux (pxOf opts) (text.length + 1) true text

/-! ### Stage 4: `parseTables` (GFM-gated line loop) -/

/-- The separator-row regex `/^\s*\|?[\s:|-]+\|?[\s:|-]*$/` matches exactly
the nonempty lines whose characters all lie in the class. -/
def sepRowOk (l : List Char) : Bool :=
  !l.isEmpty && l.all (fun c => isWsChar c || c = ':' || c = '|' || c = '-')

/-- Cell list of a row: `split("|")`, trim each, drop falsy (empty) cells. -/
def cellsOf (line : List Char) : List (List Char) :=
  ((splitCh '|' line).map trimL).filter (fun c => c ≠ [])

/-- Alignment of one separator cell: `center` when the trimmed cell starts
and ends with `:`, `right` when it only ends with `:`, else `left`. -/
def alignOf (cell : List Char) : String :=
  let t := trimL cell
  if t.take 1 = [':'] ∧ t.reverse.take 1 = [':'] then "center"
  else if t.reverse.take 1 = [':'] then "right"
  else "left"

/-- The ` px-align-a` class suffix (empty for the default `left`). -/
def alignClass (px : List Char) (a : String) : List Char :=
  if a = "left" then [] else " ".data ++ px ++ "-align-".data ++ a.data

/-- Header cells `<th>`, indexed against the alignment list
(`alignments[index] || "left"`). -/
def thCells (px : List Char) (aligns : List String) : Nat → List (List Char) → List Char
  | _, [] => []
  | i, c :: cs =>
      "<th class=\"".data ++ px ++ "-table-header".data ++
        alignClass px (aligns.getD i "left") ++ "\">".data ++ c ++ "</th>".data ++
        thCells px aligns (i + 1) cs

/-- Body cells `<td>`. -/
def tdCells (px : List Char) (aligns : List String) : Nat → List (List Char) → List Char
  | _, [] => []
  | i, c :: cs =>
      "<td class=\"".data ++ px ++ "-table-cell".data ++
        alignClass px (aligns.getD i "left") ++ "\">".data ++ c ++ "</td>".data ++
        tdCells px aligns (i + 1) cs

/-- One body row (`<tr>` emitted only when the filtered cell list is
nonempty). -/
def tableRow (px : List Char) (aligns : List String) (line : List Char) : List Char :=
  let rcs := cellsOf line
  if rcs = [] then []
  else "<tr class=\"".data ++ px ++ "-table-row\">".data ++
    tdCells px aligns 0 rcs ++ "</tr>".data

/-- Consume body rows: contiguous nonempty lines containing `|`. -/
def tableBody (px : List Char) (aligns : List String) :
    List (List Char) → List Char × List (List Char)
  | [] => ([], [])
  | l :: ls =>
      if l ≠ [] ∧ l.contains '|' = true then
        let r := tableBody px aligns ls
        (tableRow px aligns l ++ r.1, r.2)
      else ([], l :: ls)

/-- Does a table start at this line (nonempty line containing `|`, whose
nonempty successor matches the separator pattern)? -/
def tblStart (line : List Char) : List (List Char) → Bool
  | next :: _ => !line.isEmpty && !next.isEmpty && line.contains '|' && sepRowOk next
  | [] => false

/-- The table-building line loop. -/
def tablesAux (px : List Char) : Nat → List (List Char) → List (List Char)
  | 0, ls => ls
  | _ + 1, [] => []
  | f + 1, line :: rest =>
      if tblStart line rest = true then
        let next := rest.headD []
        let hcs := cellsOf line
        let aligns := ((splitCh '|' next).map alignOf).take hcs.length
        let b := tableBody px aligns (rest.drop 1)
        ("<table class=\"".data ++ px ++ "-table\">".data ++
            "<thead class=\"".data ++ px ++ "-table-head\"><tr class=\"".data ++
            px ++ "-table-row\">".data ++ thCells px aligns 0 hcs ++
            "</tr></thead><tbody class=\"".data ++ px ++ "-table-body\">".data ++
            b.1 ++ "</tbody></table>".data) :: tablesAux px f b.2
      else line :: tablesAux px f rest

/-- `parseTables(text, options)`: a no-op pass-through unless `gfm`. -/
def parseTables (text : List Char) (opts : MarkdownParseOptions) : List Char :=
  if opts.gfm then
    joinCh '\n' (tablesAux (pxOf opts) (text.length + 1) (splitCh '\n' text))
  else text

/-! ### Stage 5: `parseBlockquotes` (line loop)

A run starts at a line that is nonempty (truthy) and starts with `>`; it
continues while the line is nonempty AND (starts with `>` or is
whitespace-only).  An empty line is falsy and therefore terminates the run
even though it is blank. -/

/-- Inner-loop guard: `lines[i] && (startsWith(">") || trim() === "")`. -/
def bqGuard (l : List Char) : Bool :=
  !l.isEmpty && (l.take 1 == ['>'] || (trimL l).isEmpty)

/-- What a guarded line contributes to `quoteLines`: `substring(1).trim()`
for a `>` line, the empty line for a whitespace-only line. -/
def bqStrip (l : List Char) : List Char :=
  if l.take 1 = ['>'] then trimL (l.drop 1) else []

/-- Collect the quote run (stripped lines) and the remaining lines. -/
def bqCollect : List (List Char) → List (List Char) × List (List Char)
  | [] => ([], [])
  | l :: ls =>
      if bqGuard l = true then
        let r := bqCollect ls
        (bqStrip l :: r.1, r.2)
      else ([], l :: ls)

/-- The emitted `<blockquote>` for a collected run. -/
def bqTag (px : List Char) (quoteLines : List (List Char)) : List Char :=
  "<blockquote class=\"".data ++ px ++ "-blockquote\">".data ++
    trimL (joinCh '\n' quoteLines) ++ "</blockquote>".data

/-- The blockquote line loop. -/
def bqAux (px : List Char) : Nat → List (List Char) → List (List Char)
  | 0, ls => ls
  | _ + 1, [] => []
  | f + 1, l :: ls =>
      if (!l.isEmpty && l.take 1 == ['>']) = true then
        let r := bqCollect (l :: ls)
        bqTag px r.1 :: bqAux px f r.2
      else l :: bqAux px f ls

/-- The blockquote stage on a list of lines. -/
def bqLines (px : List Char) (ls : List (List Char)) : List (List Char) :=
  bqAux px (ls.length + 1) ls

/-- `parseBlockquotes(text, options)`. -/
def parseBlockquotes (text : List Char) (opts : MarkdownParseOptions) : List Char :=
  joinCh '\n' (bqLines (pxOf opts) (splitCh '\n' text))

/-! ### Stage 6: `parseLists` (line loop, flat runs) -/

/-- `/^\s*[-*+]\s+/.test(line)`. -/
def ulTest (l : List Char) : Bool :=
  match l.dropWhile isWsChar with
  | m :: c :: _ => (m = '-' || m = '*' || m = '+') && isWsChar c
  | _ => false

/-- The capture `(.*)$` of `/^\s*[-*+]\s+(.*)$/` (after the greedy `\s+`). -/
def ulContent (l : List Char) : List Char :=
  match l.dropWhile isWsChar with
  | _ :: rest => rest.dropWhile isWsChar
  | [] => []

/-- `/^\s*\d+\.\s+/.test(line)`. -/
def olTest (l : List Char) : Bool :=
  let r := l.dropWhile isWsChar
  let ds := r.takeWhile Char.isDigit
  !ds.isEmpty &&
    (match r.drop ds.length with
     | '.' :: c :: _ => isWsChar c
     | _ => false)

/-- The capture of `/^\s*\d+\.\s+(.*)$/`. -/
def olContent (l : List Char) : List Char :=
  (((l.dropWhile isWsChar).dropWhile Char.isDigit).drop 1).dropWhile isWsChar

/-- An `<li>` item; empty content is falsy in the source and produces no
item. -/
def liItem (px : List Char) (content : List Char) : List Char :=
  if content = [] then []
  else "<li class=\"".data ++ px ++ "-list-item\">".data ++ content ++ "</li>".data

/-- Collect a run of list lines matching `test`, concatenating the emitted
items. -/
def listCollect (test : List Char → Bool) (content : List Char → List Char)
    (px : List Char) : List (List Char) → List Char × List (List Char)
  | [] => ([], [])
  | l :: ls =>
      if test l = true then
        let r := listCollect test content px ls
        (liItem px (content l) ++ r.1, r.2)
      else ([], l :: ls)

/-- The list-building line loop. -/
def listsAux (px : List Char) : Nat → List (List Char) → List (List Char)
  | 0, ls => ls
  | _ + 1, [] => []
  | f + 1, l :: ls =>
      if l = [] then l :: listsAux px f ls
      else if ulTest l = true then
        let r := listCollect ulTest ulContent px (l :: ls)
        ("<ul class=\"".data ++ px ++ "-list ".data ++ px ++
            "-unordered-list\">".data ++ r.1 ++ "</ul>".data) :: listsAux px f r.2
      else if olTest l = true then
        let r := listCollect olTest olContent px (l :: ls)
        ("<ol class=\"".data ++ px ++ "-list ".data ++ px ++
            "-ordered-list\">".data ++ r.1 ++ "</ol>".data) :: listsAux px f r.2
      else l :: listsAux px f ls

/-- `parseLists(text, options)`. -/
def parseLists (text : List Char) (opts : MarkdownParseOptions) : List Char :=
  joinCh '\n' (listsAux (pxOf opts) (text.length + 1) (splitCh '\n' text))

/-! ### Stage 7: `parseLinksAndImages`

Images: `replace(/!\[([^\]]*)\]\(([^)]+?)(?:\s+"([^"]+)")?\)/g, ...)`,
then links: `replace(/\[([^\]]+)\]\(([^)]+?)(?:\s+"([^"]+)")?\)/g, ...)`.
The URL group is lazy; at each candidate end the engine first tries the
optional title group and then the bare closing parenthesis. -/

/-- Try `\s+"([^"]+)"` immediately followed by `)`. -/
def tryTitle (l : List Char) : Option (List Char × List Char) :=
  if (l.takeWhile isWsChar) = [] then none
  else
    match l.dropWhile isWsChar with
    | '"' :: r =>
        let t := r.takeWhile (fun c => c ≠ '"')
        if t = [] then none
        else
          match r.dropWhile (fun c => c ≠ '"') with
          | '"' :: ')' :: after => some (t, after)
          | _ => none
    | _ => none

/-- Try to close the URL: the optional title group first, then `)`. -/
def closeTry (l : List Char) : Option (Option (List Char) × List Char) :=
  match tryTitle l with
  | some r => some (some r.1, r.2)
  | none =>
      match l with
      | ')' :: after => some (none, after)
      | _ => none

/-- Lazy scan of `([^)]+?)` followed by the optional title and `)`:
returns the URL, the optional title, and the rest after the match. -/
def srcScan (acc : List Char) : List Char → Option (List Char × Option (List Char) × List Char)
  | [] => none
  | c :: rest =>
      if c = ')' then none
      else
        match closeTry rest with
        | some r => some (acc ++ [c], r.1, r.2)
        | none => srcScan (acc ++ [c]) rest

/-- ` title="..."` attribute (escaped), when a title was captured. -/
def titleAttrOf : Option (List Char) → List Char
  | some t => " title=\"".data ++ escapeHtmlL t ++ "\"".data
  | none => []

/-- Image global-replace scanner, collecting `images` metadata. -/
def imagesAux (px : List Char) : Nat → List Char → List Char × List ImageEntry
  | 0, l => (l, [])
  | _ + 1, [] => ([], [])
  | f + 1, c :: rest =>
      if c = '!' ∧ rest.take 1 = ['['] then
        let r1 := rest.drop 1
        let alt := r1.takeWhile (fun x => x ≠ ']')
        match r1.dropWhile (fun x => x ≠ ']') with
        | ']' :: '(' :: r2 =>
            match srcScan [] r2 with
            | some m =>
                let r := imagesAux px f m.2.2
                ("<img src=\"".data ++ escapeHtmlL m.1 ++ "\" alt=\"".data ++
                    escapeHtmlL alt ++ "\" class=\"".data ++ px ++
                    "-image\"".data ++ titleAttrOf m.2.1 ++ ">".data ++ r.1,
                  ⟨⟨alt⟩, ⟨m.1⟩, m.2.1.map (fun t => (⟨t⟩ : String))⟩ :: r.2)
            | none =>
                let r := imagesAux px f rest
                (c :: r.1, r.2)
        | _ =>
            let r := imagesAux px f rest
            (c :: r.1, r.2)
      else
        let r := imagesAux px f rest
        (c :: r.1, r.2)

/-- Link global-replace scanner, collecting `links` metadata; the link text
must be nonempty (`[^\]]+`) and is inserted raw. -/
def linksAux (px tgt : List Char) : Nat → List Char → List Char × List LinkEntry
  | 0, l => (l, [])
  | _ + 1, [] => ([], [])
  | f + 1, c :: rest =>
      if c = '[' then
        let txt := rest.takeWhile (fun x => x ≠ ']')
        if txt = [] then
          let r := linksAux px tgt f rest
          (c :: r.1, r.2)
        else
          match rest.dropWhile (fun x => x ≠ ']') with
          | ']' :: '(' :: r2 =>
              match srcScan [] r2 with
              | some m =>
                  let r := linksAux px tgt f m.2.2
                  ("<a href=\"".data ++ escapeHtmlL m.1 ++ "\" class=\"".data ++
                      px ++ "-link\"".data ++ titleAttrOf m.2.1 ++ tgt ++
                      ">".data ++ txt ++ "</a>".data ++ r.1,
                    ⟨⟨txt⟩, ⟨m.1⟩, m.2.1.map (fun t => (⟨t⟩ : String))⟩ :: r.2)
              | none =>
                  let r := linksAux px tgt f rest
                  (c :: r.1, r.2)
          | _ =>
              let r := linksAux px tgt f rest
              (c :: r.1, r.2)
      else
        let r := linksAux px tgt f rest
        (c :: r.1, r.2)

/-- `parseLinksAndImages(text, options)`: images before links. -/
def parseLinksAndImages (text : List Char) (opts : MarkdownParseOptions) :
    List Char × List LinkEntry × List ImageEntry :=
  let px := pxOf opts
  let tgt :=
    if opts.linksInNewTab then " target=\"_blank\" rel=\"noopener noreferrer\"".data
    else []
  let ri := imagesAux px (text.length + 1) text
  let rl := linksAux px tgt (ri.1.length + 1) ri.1
  (rl.1, rl.2, ri.2)

/-! ### Stage 8: `parseTextFormatting`

Seven sequential global replaces of the form `/D(.*?)D/g` with literal
delimiters `~~`, `***`, `___`, `**`, `__`, `*`, `_`; `.` does not match a
newline, so each match stays within one line. -/

/-- Find the earliest closing delimiter before the end of the line; returns
the (lazy) content and the rest after the closer. -/
def findPairClose (delim : List Char) : List Char → Option (List Char × List Char)
  | [] => none
  | c :: rest =>
      if delim.isPrefixOf (c :: rest) then some ([], (c :: rest).drop delim.length)
      else if c = '\n' then none
      else
        match findPairClose delim rest with
        | some r => some (c :: r.1, r.2)
        | none => none

/-- Global-replace scanner for one delimiter pair. -/
def fmtAux (delim pre post : List Char) : Nat → List Char → List Char
  | 0, l => l
  | _ + 1, [] => []
  | f + 1, c :: rest =>
      if delim.isPrefixOf (c :: rest) then
        match findPairClose delim ((c :: rest).drop delim.length) with
        | some r => pre ++ r.1 ++ post ++ fmtAux delim pre post f r.2
        | none => c :: fmtAux delim pre post f rest
      else c :: fmtAux delim pre post f rest

/-- One formatting pass over a whole text. -/
def fmtPass (delim pre post l : List Char) : List Char :=
  fmtAux delim pre post (l.length + 1) l

/-- `parseTextFormatting(text, options)`. -/
def parseTextFormatting (text : List Char) (opts : MarkdownParseOptions) :
    List Char :=
  let px := pxOf opts
  let biPre := "<strong class=\"".data ++ px ++ "-bold\"><em class=\"".data ++
    px ++ "-italic\">".data
  let bPre := "<strong class=\"".data ++ px ++ "-bold\">".data
  let iPre := "<em class=\"".data ++ px ++ "-italic\">".data
  let t1 := fmtPass "~~".data
    ("<del class=\"".data ++ px ++ "-strikethrough\">".data) "</del>".data text
  let t2 := fmtPass "***".data biPre "</em></strong>".data t1
  let t3 := fmtPass "___".data biPre "</em></strong>".data t2
  let t4 := fmtPass "**".data bPre "</strong>".data t3
  let t5 := fmtPass "__".data bPre "</strong>".data t4
  let t6 := fmtPass "*".data iPre "</em>".data t5
  fmtPass "_".data iPre "</em>".data t6

/-! ### Stage 9: `parseParagraphs`

`text.split(/\n\s*\n/)`: the separator is a newline, a greedy whitespace
run, and a closing newline (the last newline of the whitespace run, by
greedy backtracking).  Each block is trimmed; empty blocks are dropped;
blocks already starting with a block-level tag pass through; otherwise
internal newlines become `<br>` and the block is wrapped in `<p>`. -/

/-- Splitter for `/\n\s*\n/` (accumulator holds the current block
reversed).  On a `\n` whose following whitespace run contains another `\n`,
the separator extends to the last `\n` of the run. -/
def paraSplitAux : Nat → List Char → List Char → List (List Char)
  | 0, acc, l => [acc.reverse ++ l]
  | _ + 1, acc, [] => [acc.reverse]
  | f + 1, acc, c :: rest =>
      if c = '\n' then
        let run := rest.takeWhile isWsChar
        let keepLen := run.length - (run.reverse.takeWhile (fun x => x ≠ '\n')).length
        if 0 < keepLen then acc.reverse :: paraSplitAux f [] (rest.drop keepLen)
        else paraSplitAux f ('\n' :: acc) rest
      else paraSplitAux f (c :: acc) rest

/-- The block-level tag allowlist
`/^<(h[1-6]|ul|ol|table|blockquote|pre|hr|div)/`. -/
def blockTags : List (List Char) :=
  ["<h1".data, "<h2".data, "<h3".data, "<h4".data, "<h5".data, "<h6".data,
    "<ul".data, "<ol".data, "<table".data, "<blockquote".data, "<pre".data,
    "<hr".data, "<div".data]

/-- Does the trimmed block start with a block-level tag? -/
def isBlockStart (l : List Char) : Bool :=
  blockTags.any (fun p => p.isPrefixOf l)

/-- `replace(/\n/g, "<br>")`. -/
def brMap : List Char → List Char
  | [] => []
  | c :: rest => (if c = '\n' then "<br>".data else [c]) ++ brMap rest

/-- Map one block: drop empty, pass through block-level, else wrap in
`<p>` with `<br>` line breaks. -/
def paraBlock (px : List Char) (b : List Char) : List Char :=
  let t := trimL b
  if t = [] then []
  else if isBlockStart t = true then t
  else "<p class=\"".data ++ px ++ "-paragraph\">".data ++ brMap t ++ "</p>".data

/-- `parseParagraphs(text, options)`. -/
def parseParagraphs (text : List Char) (opts : MarkdownParseOptions) : List Char :=
  joinSep "\n\n".data
    (((paraSplitAux (text.length + 1) [] text).map (paraBlock (pxOf opts))).filter
      (fun b => b ≠ []))

/-! ### `parseMarkdown`: the pipeline -/

/-- `parseMarkdown(markdown, options)`: the nine stages in their fixed
order, harvesting the metadata from stages 1, 2 and 7. -/
def parseMarkdown (markdown : String) (opts : MarkdownParseOptions) : ParsedMarkdown :=
  let c := parseCode markdown.data opts
  let h := parseHeaders c.1 opts
  let t3 := parseHorizontalRules h.1 opts
  let t4 := parseTables t3 opts
  let t5 := parseBlockquotes t4 opts
  let t6 := parseLists t5 opts
  let li := parseLinksAndImages t6 opts
  let t8 := parseTextFormatting li.1 opts
  let t9 := parseParagraphs t8 opts
  { html := ⟨t9⟩,
    metadata :=
      { headings := h.2, links := li.2.1, images := li.2.2, codeBlocks := c.2 } }

/-- `markdownToHtml(markdown, options)`. -/
def markdownToHtml (markdown : String) (opts : MarkdownParseOptions) : String :=
  (parseMarkdown markdown opts).html

/-- The default options record of `parseMarkdown`. -/
def defaultOpts : MarkdownParseOptions := {}

/-! ## Helper lemmas -/

theorem dropWhile_eq_nil_of_all {p : Char → Bool} :
    ∀ {l : List Char}, (∀ c ∈ l, p c = true) → l.dropWhile p = []
  | [], _ => rfl
  | c :: rest, h => by
      have hc : p c = true := h c (List.mem_cons_self c rest)
      simp only [List.dropWhile, hc]
      exact dropWhile_eq_nil_of_all fun x hx => h x (List.mem_cons_of_mem c hx)

theorem takeWhile_nil_of_head {p : Char → Bool} {c : Char} {rest : List Char}
    (hc : p c = false) : (c :: rest).takeWhile p = [] := by
  simp [List.takeWhile, hc]

theorem elem_eq_false_of_all {a : Char} :
    ∀ {l : List Char}, (∀ c ∈ l, c ≠ a) → List.elem a l = false
  | [], _ => rfl
  | c :: rest, h => by
      have hc : (a == c) = false := by
        simp only [beq_eq_false_iff_ne, ne_eq]
        exact fun he => h c (List.mem_cons_self c rest) he.symm
      simp only [List.elem, hc]
      exact elem_eq_false_of_all fun x hx => h x (List.mem_cons_of_mem c hx)

theorem contains_eq_false_of_all {a : Char} {l : List Char}
    (h : ∀ c ∈ l, c ≠ a) : l.contains a = false :=
  elem_eq_false_of_all h

theorem isPrefixOf_cons_false {d c : Char} {ds l : List Char} (h : c ≠ d) :
    (d :: ds).isPrefixOf (c :: l) = false := by
  simp [List.isPrefixOf, beq_iff_eq]
  exact fun he => absurd he.symm h

theorem takeWhile_all_append {p : Char → Bool} {y : Char} {ys : List Char}
    (hy : p y = false) :
    ∀ (xs : List Char), (∀ x ∈ xs, p x = true) →
      (xs ++ y :: ys).takeWhile p = xs
  | [], _ => by simp [List.takeWhile, hy]
  | x :: xs, h => by
      have hx : p x = true := h x (List.mem_cons_self x xs)
      have ih : (xs ++ y :: ys).takeWhile p = xs := takeWhile_all_append hy xs
        (fun z hz => h z (List.mem_cons_of_mem x hz))
      simp only [List.cons_append, List.takeWhile, hx]
      exact congrArg (List.cons x) ih

theorem dropWhile_all_append {p : Char → Bool} {y : Char} {ys : List Char}
    (hy : p y = false) :
    ∀ (xs : List Char), (∀ x ∈ xs, p x = true) →
      (xs ++ y :: ys).dropWhile p = y :: ys
  | [], _ => by simp [List.dropWhile, hy]
  | x :: xs, h => by
      have hx : p x = true := h x (List.mem_cons_self x xs)
      have ih : (xs ++ y :: ys).dropWhile p = y :: ys := dropWhile_all_append hy xs
        (fun z hz => h z (List.mem_cons_of_mem x hz))
      simp only [List.cons_append, List.dropWhile, hx]
      exact ih

/-! Lemmas about `splitCh`/`joinCh`. -/

theorem splitChAux_ne_nil (sep : Char) (acc : List Char) :
    ∀ l, splitChAux sep acc l ≠ []
  | [] => by simp [splitChAux]
  | c :: rest => by
      by_cases h : c = sep
      · simp [splitChAux, h]
      · simpa [splitChAux, h] using splitChAux_ne_nil sep (c :: acc) rest

theorem joinCh_cons_of_ne_nil (sep : Char) (a : List Char) {L : List (List Char)}
    (h : L ≠ []) : joinCh sep (a :: L) = a ++ sep :: joinCh sep L := by
  match L, h with
  | l :: ls, _ => rfl

theorem joinCh_splitChAux (sep : Char) :
    ∀ (l acc : List Char), joinCh sep (splitChAux sep acc l) = acc.reverse ++ l
  | [], acc => by simp [splitChAux, joinCh]
  | c :: rest, acc => by
      by_cases h : c = sep
      · rw [show splitChAux sep acc (c :: rest) =
              acc.reverse :: splitChAux sep [] rest from by simp [splitChAux, h]]
        rw [joinCh_cons_of_ne_nil sep _ (splitChAux_ne_nil sep [] rest)]
        rw [joinCh_splitChAux sep rest []]
        simp [h]
      · rw [show splitChAux sep acc (c :: rest) = splitChAux sep (c :: acc) rest
              from by simp [splitChAux, h]]
        rw [joinCh_splitChAux sep rest (c :: acc)]
        simp

theorem joinCh_splitCh (sep : Char) (l : List Char) :
    joinCh sep (splitCh sep l) = l := by
  simpa using joinCh_splitChAux sep l []

theorem splitChAux_mem {P : Char → Prop} (sep : Char) :
    ∀ (l acc : List Char), (∀ c ∈ l, P c) → (∀ c ∈ acc, P c) →
      ∀ line ∈ splitChAux sep acc l, ∀ c ∈ line, P c
  | [], acc, _, hacc => by
      intro line hline c hc
      simp only [splitChAux, List.mem_singleton] at hline
      subst hline
      exact hacc c (List.mem_reverse.mp hc)
  | x :: rest, acc, hl, hacc => by
      intro line hline c hc
      by_cases h : x = sep
      · rw [show splitChAux sep acc (x :: rest) =
              acc.reverse :: splitChAux sep [] rest from by simp [splitChAux, h]]
          at hline
        rcases List.mem_cons.mp hline with h1 | h2
        · subst h1; exact hacc c (List.mem_reverse.mp hc)
        · exact splitChAux_mem sep rest []
            (fun z hz => hl z (List.mem_cons_of_mem _ hz)) (by simp)
            line h2 c hc
      · rw [show splitChAux sep acc (x :: rest) = splitChAux sep (x :: acc) rest
              from by simp [splitChAux, h]] at hline
        refine splitChAux_mem sep rest (x :: acc)
          (fun z hz => hl z (List.mem_cons_of_mem _ hz)) ?_ line hline c hc
        intro z hz
        rcases List.mem_cons.mp hz with h1 | h2
        · rw [h1]; exact hl x (List.mem_cons_self _ _)
        · exact hacc z h2


/-! Whitespace-character facts used by the blank-input lemmas. -/

theorem wsChar_cases {c : Char} (h : isWsChar c = true) :
    c = ' ' ∨ c = '\t' ∨ c = '\n' ∨ c = '\r' ∨ c = '\x0b' ∨ c = '\x0c' := by
  simp only [isWsChar, Bool.or_eq_true, decide_eq_true_eq] at h
  tauto

theorem wsChar_facts {c : Char} (h : isWsChar c = true) :
    c ≠ btick ∧ c ≠ '#' ∧ c ≠ '|' ∧ c ≠ '>' ∧ c ≠ '[' ∧ c ≠ '!' ∧
      c ≠ '~' ∧ c ≠ '*' ∧ c ≠ '_' := by
  rcases wsChar_cases h with h1 | h1 | h1 | h1 | h1 | h1 <;> rw [h1] <;> decide

theorem trimL_eq_nil {l : List Char} (h : ∀ c ∈ l, isWsChar c = true) :
    trimL l = [] := by
  simp [trimL, dropWhile_eq_nil_of_all h]

/-! Pass-through lemmas: on whitespace-only input every stage returns its
input unchanged with no harvested metadata (for any fuel value). -/

theorem fencedAux_ws (px : List Char) :
    ∀ (f : Nat) (l : List Char), (∀ c ∈ l, isWsChar c = true) →
      fencedAux px f l = (l, [])
  | 0, _, _ => rfl
  | _ + 1, [], _ => rfl
  | f + 1, c :: rest, h => by
      have hc : c ≠ btick := (wsChar_facts (h c (List.mem_cons_self _ _))).1
      have ih := fencedAux_ws px f rest
        (fun x hx => h x (List.mem_cons_of_mem _ hx))
      simp [fencedAux, hc, ih]

theorem inlineAux_ws (px : List Char) :
    ∀ (f : Nat) (l : List Char), (∀ c ∈ l, isWsChar c = true) →
      inlineAux px f l = l
  | 0, _, _ => rfl
  | _ + 1, [], _ => rfl
  | f + 1, c :: rest, h => by
      have hc : c ≠ btick := (wsChar_facts (h c (List.mem_cons_self _ _))).1
      have ih := inlineAux_ws px f rest
        (fun x hx => h x (List.mem_cons_of_mem _ hx))
      simp [inlineAux, hc, ih]

theorem headerTry_ws {l : List Char} (h : ∀ c ∈ l, isWsChar c = true) :
    headerTry l = none := by
  match l with
  | [] => rfl
  | c :: rest =>
      have hc : c ≠ '#' := (wsChar_facts (h c (List.mem_cons_self _ _))).2.1
      have ht : (c :: rest).takeWhile (fun c => c = '#') = [] :=
        takeWhile_nil_of_head (by simp [hc])
      simp [headerTry, ht]

theorem headersAux_ws (px : List Char) :
    ∀ (f : Nat) (b : Bool) (l : List Char), (∀ c ∈ l, isWsChar c = true) →
      headersAux px f b l = (l, [])
  | 0, _, _, _ => rfl
  | _ + 1, _, [], _ => rfl
  | f + 1, b, c :: rest, h => by
      have ht := headerTry_ws h
      have ih := headersAux_ws px f (decide (c = '\n')) rest
        (fun x hx => h x (List.mem_cons_of_mem _ hx))
      cases b <;> simp [headersAux, ht, ih]

theorem hrTry_ws {l : List Char} (h : ∀ c ∈ l, isWsChar c = true) :
    hrTry l = none := by
  have hd : l.dropWhile isWsChar = [] := dropWhile_eq_nil_of_all h
  simp [hrTry, hd]

theorem hrAux_ws (px : List Char) :
    ∀ (f : Nat) (b : Bool) (l : List Char), (∀ c ∈ l, isWsChar c = true) →
      hrAux px f b l = l
  | 0, _, _, _ => rfl
  | _ + 1, _, [], _ => rfl
  | f + 1, b, c :: rest, h => by
      have ht := hrTry_ws h
      have ih := hrAux_ws px f (decide (c = '\n')) rest
        (fun x hx => h x (List.mem_cons_of_mem _ hx))
      cases b <;> simp [hrAux, ht, ih]

theorem tblStart_ws {line : List Char} (hline : ∀ c ∈ line, isWsChar c = true) :
    ∀ rest, tblStart line rest = false
  | [] => rfl
  | next :: _ => by
      have hcont : line.contains '|' = false :=
        contains_eq_false_of_all fun c hc => (wsChar_facts (hline c hc)).2.2.1
      simp only [tblStart]
      rw [hcont]
      simp

theorem tablesAux_ws (px : List Char) :
    ∀ (f : Nat) (ls : List (List Char)),
      (∀ line ∈ ls, ∀ c ∈ line, isWsChar c = true) → tablesAux px f ls = ls
  | 0, _, _ => rfl
  | _ + 1, [], _ => rfl
  | f + 1, line :: rest, h => by
      have hts := tblStart_ws (h line (List.mem_cons_self _ _)) rest
      have ih := tablesAux_ws px f rest
        (fun l hl => h l (List.mem_cons_of_mem _ hl))
      simp [tablesAux, hts, ih]

theorem bqAux_ws (px : List Char) :
    ∀ (f : Nat) (ls : List (List Char)),
      (∀ line ∈ ls, ∀ c ∈ line, isWsChar c = true) → bqAux px f ls = ls
  | 0, _, _ => rfl
  | _ + 1, [], _ => rfl
  | f + 1, l :: ls, h => by
      have hguard : (!l.isEmpty && l.take 1 == ['>']) = false := by
        match l with
        | [] => rfl
        | c :: r =>
            have hc : c ≠ '>' :=
              (wsChar_facts (h (c :: r) (List.mem_cons_self _ _) c
                (List.mem_cons_self _ _))).2.2.2.1
            simp [List.take, hc]
      have ih := bqAux_ws px f ls (fun x hx => h x (List.mem_cons_of_mem _ hx))
      simp [bqAux, hguard, ih]

theorem ulTest_ws {l : List Char} (h : ∀ c ∈ l, isWsChar c = true) :
    ulTest l = false := by
  have hd : l.dropWhile isWsChar = [] := dropWhile_eq_nil_of_all h
  simp [ulTest, hd]

theorem olTest_ws {l : List Char} (h : ∀ c ∈ l, isWsChar c = true) :
    olTest l = false := by
  have hd : l.dropWhile isWsChar = [] := dropWhile_eq_nil_of_all h
  simp [olTest, hd]

theorem listsAux_ws (px : List Char) :
    ∀ (f : Nat) (ls : List (List Char)),
      (∀ line ∈ ls, ∀ c ∈ line, isWsChar c = true) → listsAux px f ls = ls
  | 0, _, _ => rfl
  | _ + 1, [], _ => rfl
  | f + 1, l :: ls, h => by
      have ih := listsAux_ws px f ls (fun x hx => h x (List.mem_cons_of_mem _ hx))
      by_cases hl : l = []
      · simp [listsAux, hl, ih]
      · have h1 := ulTest_ws (h l (List.mem_cons_self _ _))
        have h2 := olTest_ws (h l (List.mem_cons_self _ _))
        simp [listsAux, hl, h1, h2, ih]

theorem imagesAux_ws (px : List Char) :
    ∀ (f : Nat) (l : List Char), (∀ c ∈ l, isWsChar c = true) →
      imagesAux px f l = (l, [])
  | 0, _, _ => rfl
  | _ + 1, [], _ => rfl
  | f + 1, c :: rest, h => by
      have hc : c ≠ '!' := (wsChar_facts (h c (List.mem_cons_self _ _))).2.2.2.2.2.1
      have ih := imagesAux_ws px f rest
        (fun x hx => h x (List.mem_cons_of_mem _ hx))
      simp [imagesAux, hc, ih]

theorem linksAux_ws (px tgt : List Char) :
    ∀ (f : Nat) (l : List Char), (∀ c ∈ l, isWsChar c = true) →
      linksAux px tgt f l = (l, [])
  | 0, _, _ => rfl
  | _ + 1, [], _ => rfl
  | f + 1, c :: rest, h => by
      have hc : c ≠ '[' := (wsChar_facts (h c (List.mem_cons_self _ _))).2.2.2.2.1
      have ih := linksAux_ws px tgt f rest
        (fun x hx => h x (List.mem_cons_of_mem _ hx))
      simp [linksAux, hc, ih]

theorem fmtAux_not_head (d : Char) (ds pre post : List Char) :
    ∀ (f : Nat) (l : List Char), (∀ c ∈ l, c ≠ d) →
      fmtAux (d :: ds) pre post f l = l
  | 0, _, _ => rfl
  | _ + 1, [], _ => rfl
  | f + 1, c :: rest, h => by
      have hp : (d :: ds).isPrefixOf (c :: rest) = false :=
        isPrefixOf_cons_false (h c (List.mem_cons_self _ _))
      have ih := fmtAux_not_head d ds pre post f rest
        (fun x hx => h x (List.mem_cons_of_mem _ hx))
      simp [fmtAux, hp, ih]

theorem paraSplitAux_mem {P : Char → Prop} :
    ∀ (f : Nat) (acc l : List Char), (∀ c ∈ l, P c) → (∀ c ∈ acc, P c) →
      ∀ b ∈ paraSplitAux f acc l, ∀ c ∈ b, P c
  | 0, acc, l, hl, hacc => by
      intro b hb c hc
      simp only [paraSplitAux, List.mem_singleton] at hb
      subst hb
      rcases List.mem_append.mp hc with h1 | h2
      · exact hacc c (List.mem_reverse.mp h1)
      · exact hl c h2
  | _ + 1, acc, [], hl, hacc => by
      intro b hb c hc
      simp only [paraSplitAux, List.mem_singleton] at hb
      subst hb
      exact hacc c (List.mem_reverse.mp hc)
  | f + 1, acc, x :: rest, hl, hacc => by
      intro b hb c hc
      by_cases hx : x = '\n'
      · rw [show paraSplitAux (f + 1) acc (x :: rest) =
              (let run := rest.takeWhile isWsChar
               let keepLen := run.length -
                 (run.reverse.takeWhile (fun x => x ≠ '\n')).length
               if 0 < keepLen then
                 acc.reverse :: paraSplitAux f [] (rest.drop keepLen)
               else paraSplitAux f ('\n' :: acc) rest)
              from by simp [paraSplitAux, hx]] at hb
        by_cases hk : 0 < (rest.takeWhile isWsChar).length -
            ((rest.takeWhile isWsChar).reverse.takeWhile (fun x => x ≠ '\n')).length
        · rw [if_pos hk] at hb
          rcases List.mem_cons.mp hb with h1 | h2
          · subst h1; exact hacc c (List.mem_reverse.mp hc)
          · exact paraSplitAux_mem f [] _
              (fun z hz => hl z (List.mem_cons_of_mem _ (List.mem_of_mem_drop hz)))
              (by simp) b h2 c hc
        · rw [if_neg hk] at hb
          refine paraSplitAux_mem f ('\n' :: acc) rest
            (fun z hz => hl z (List.mem_cons_of_mem _ hz)) ?_ b hb c hc
          intro z hz
          rcases List.mem_cons.mp hz with h1 | h2
          · rw [h1, ← hx]; exact hl x (List.mem_cons_self _ _)
          · exact hacc z h2
      · rw [show paraSplitAux (f + 1) acc (x :: rest) =
              paraSplitAux f (x :: acc) rest from by simp [paraSplitAux, hx]] at hb
        refine paraSplitAux_mem f (x :: acc) rest
          (fun z hz => hl z (List.mem_cons_of_mem _ hz)) ?_ b hb c hc
        intro z hz
        rcases List.mem_cons.mp hz with h1 | h2
        · rw [h1]; exact hl x (List.mem_cons_self _ _)
        · exact hacc z h2


theorem paraBlock_ws (px : List Char) {b : List Char}
    (h : ∀ c ∈ b, isWsChar c = true) : paraBlock px b = [] := by
  simp [paraBlock, trimL_eq_nil h]

theorem parseParagraphs_ws (s : List Char) (opts : MarkdownParseOptions)
    (h : ∀ c ∈ s, isWsChar c = true) : parseParagraphs s opts = [] := by
  have hb : ∀ b ∈ paraSplitAux (s.length + 1) [] s, ∀ c ∈ b, isWsChar c = true :=
    paraSplitAux_mem (s.length + 1) [] s h (by simp)
  have hmap : ∀ b ∈ (paraSplitAux (s.length + 1) [] s).map
      (paraBlock (pxOf opts)), b = [] := by
    intro b hbm
    obtain ⟨b0, hb0, hbe⟩ := List.mem_map.mp hbm
    rw [← hbe]
    exact paraBlock_ws (pxOf opts) (hb b0 hb0)
  simp only [parseParagraphs]
  have hfilter : ((paraSplitAux (s.length + 1) [] s).map
      (paraBlock (pxOf opts))).filter (fun b => b ≠ []) = [] :=
    List.filter_eq_nil_iff.mpr (by intro b hbm; simpa using hmap b hbm)
  rw [hfilter]
  rfl

/-- On whitespace-only input (the empty string included) every stage passes
the text through unchanged and the paragraph stage drops every block, so
`parseMarkdown` returns empty html and empty metadata. -/
theorem parseMarkdown_blank (s : String) (opts : MarkdownParseOptions)
    (h : ∀ c ∈ s.data, isWsChar c = true) :
    parseMarkdown s opts = ⟨"", ⟨[], [], [], []⟩⟩ := by
  have hlines : ∀ line ∈ splitCh '\n' s.data, ∀ c ∈ line, isWsChar c = true :=
    splitChAux_mem '\n' s.data [] h (by simp)
  have h1 : parseCode s.data opts = (s.data, []) := by
    have hf := fencedAux_ws (pxOf opts) (s.data.length + 1) s.data h
    have hi := inlineAux_ws (pxOf opts) (s.data.length + 1) s.data h
    simp only [parseCode, inlineCodePass]
    rw [hf]
    dsimp only
    rw [hi]
  have h2 : parseHeaders s.data opts = (s.data, []) :=
    headersAux_ws (pxOf opts) (s.data.length + 1) true s.data h
  have h3 : parseHorizontalRules s.data opts = s.data :=
    hrAux_ws (pxOf opts) (s.data.length + 1) true s.data h
  have h4 : parseTables s.data opts = s.data := by
    have ht := tablesAux_ws (pxOf opts) (s.data.length + 1)
      (splitCh '\n' s.data) hlines
    by_cases hg : opts.gfm
    · simp only [parseTables]
      rw [if_pos hg, ht, joinCh_splitCh]
    · simp only [parseTables]
      rw [if_neg hg]
  have h5 : parseBlockquotes s.data opts = s.data := by
    have hb := bqAux_ws (pxOf opts) ((splitCh '\n' s.data).length + 1)
      (splitCh '\n' s.data) hlines
    simp only [parseBlockquotes, bqLines]
    rw [hb, joinCh_splitCh]
  have h6 : parseLists s.data opts = s.data := by
    have hlst := listsAux_ws (pxOf opts) (s.data.length + 1)
      (splitCh '\n' s.data) hlines
    simp only [parseLists]
    rw [hlst, joinCh_splitCh]
  have h7 : parseLinksAndImages s.data opts = (s.data, [], []) := by
    have hi := imagesAux_ws (pxOf opts) (s.data.length + 1) s.data h
    have hl := fun tgt => linksAux_ws (pxOf opts) tgt (s.data.length + 1) s.data h
    simp only [parseLinksAndImages]
    rw [hi]
    dsimp only
    rw [hl]
  have hfmt : ∀ (d : Char) (ds a b : List Char), isWsChar d = false →
      fmtAux (d :: ds) a b (s.data.length + 1) s.data = s.data := by
    intro d ds a b hd
    refine fmtAux_not_head d ds a b _ s.data ?_
    intro c hc he
    have hcw := h c hc
    rw [he, hd] at hcw
    exact Bool.noConfusion hcw
  have h8 : parseTextFormatting s.data opts = s.data := by
    have e1 : ∀ a b, fmtPass "~~".data a b s.data = s.data :=
      fun a b => hfmt '~' ['~'] a b (by decide)
    have e2 : ∀ a b, fmtPass "***".data a b s.data = s.data :=
      fun a b => hfmt '*' ['*', '*'] a b (by decide)
    have e3 : ∀ a b, fmtPass "___".data a b s.data = s.data :=
      fun a b => hfmt '_' ['_', '_'] a b (by decide)
    have e4 : ∀ a b, fmtPass "**".data a b s.data = s.data :=
      fun a b => hfmt '*' ['*'] a b (by decide)
    have e5 : ∀ a b, fmtPass "__".data a b s.data = s.data :=
      fun a b => hfmt '_' ['_'] a b (by decide)
    have e6 : ∀ a b, fmtPass "*".data a b s.data = s.data :=
      fun a b => hfmt '*' [] a b (by decide)
    have e7 : ∀ a b, fmtPass "_".data a b s.data = s.data :=
      fun a b => hfmt '_' [] a b (by decide)
    simp only [parseTextFormatting, e1, e2, e3, e4, e5, e6, e7]
  have h9 : parseParagraphs s.data opts = [] := parseParagraphs_ws s.data opts h
  simp only [parseMarkdown, h1, h2, h3, h4, h5, h6, h7, h8, h9]


/-! ## Claim theorems -/

/-- Claim C1: for every input string (including the empty string and strings
with unmatched backticks, brackets, or asterisks) and every options record,
`parseMarkdown` terminates normally and returns a `ParsedMarkdown` result
object; the embedding is a total function, so no exception escapes the
parser and every stage maps text to text. -/
theorem C1_parseMarkdown_total (md : String) (opts : MarkdownParseOptions) :
    ∃ r : ParsedMarkdown, parseMarkdown md opts = r :=
  ⟨parseMarkdown md opts, rfl⟩

/-- Claim C2 (evaluation at the failing input): the asterisk-delimited text
inside the inline code span of `` `*x*` `` IS reinterpreted by the later
emphasis stage — the emitted html wraps an `<em>` element inside the
`<code>` element, contradicting the claim that characters inside code
constructs trigger no emphasis transformation. -/
theorem C2_code_span_emphasis_eval :
    (parseMarkdown "`*x*`" defaultOpts).html =
      "<p class=\"nb-md-paragraph\"><code class=\"nb-md-inline-code\"><em class=\"nb-md-italic\">x</em></code></p>" :=
  rfl

/-- Claim C3: on `"# not a heading\n```\n# also not\n```"` exactly one
heading (level 1, text `"not a heading"`) is recorded, the `#` line inside
the fence is not added to `headings`, and `codeBlocks` receives exactly one
entry with no language and code `"# also not"`. -/
theorem C3_code_fence_precedence :
    (parseMarkdown "# not a heading\n```\n# also not\n```" defaultOpts).metadata.headings =
        [⟨1, "not a heading", "not-a-heading"⟩] ∧
    (parseMarkdown "# not a heading\n```\n# also not\n```" defaultOpts).metadata.codeBlocks =
        [⟨none, "# also not"⟩] :=
  ⟨rfl, rfl⟩

/-- Claim C4 (evaluation at the failing input): with gfm enabled, on the
header/separator/body rows of the claim, NEITHER `<td>` carries an alignment
class — the separator cells are aligned against the unfiltered `split("|")`
result (whose first element is the empty string before the leading pipe), so
the `right` alignment parsed from `---:` is indexed out of the header range
and dropped; no `-align-` class appears anywhere in the emitted table. -/
theorem C4_table_alignment_eval :
    (parseMarkdown "| A | B |\n| :--- | ---: |\n| 1 | 2 |" defaultOpts).html =
      "<table class=\"nb-md-table\"><thead class=\"nb-md-table-head\"><tr class=\"nb-md-table-row\"><th class=\"nb-md-table-header\">A</th><th class=\"nb-md-table-header\">B</th></tr></thead><tbody class=\"nb-md-table-body\"><tr class=\"nb-md-table-row\"><td class=\"nb-md-table-cell\">1</td><td class=\"nb-md-table-cell\">2</td></tr></tbody></table>" ∧
    ¬ ("-align-".data <:+:
      (parseMarkdown "| A | B |\n| :--- | ---: |\n| 1 | 2 |" defaultOpts).html.data) :=
  ⟨rfl, by decide⟩

/-- Claim C5 counterexample: on `"> a\n\n> b"` the lines form one maximal
run (each starts with `>` or is blank), yet `parseMarkdown` emits TWO
`<blockquote>` elements, not one: the empty line is falsy in the inner loop
guard and terminates the quote run. -/
theorem C5_blockquote_empty_line_counterexample :
    (parseMarkdown "> a\n\n> b" defaultOpts).html =
      "<blockquote class=\"nb-md-blockquote\">a</blockquote>\n\n<blockquote class=\"nb-md-blockquote\">b</blockquote>" ∧
    (parseMarkdown "> a\n\n> b" defaultOpts).html ≠
      "<blockquote class=\"nb-md-blockquote\">a\n\nb</blockquote>" :=
  ⟨rfl, by decide⟩

/-- Claim C6 counterexample: the inline code span `` `a<b` `` is emitted
with its `<` RAW (the `$1` replacement does not HTML-escape the span
content), not as the `&lt;` entity the claim requires. -/
theorem C6_inline_code_unescaped_counterexample :
    (parseMarkdown "`a<b`" defaultOpts).html =
      "<p class=\"nb-md-paragraph\"><code class=\"nb-md-inline-code\">a<b</code></p>" ∧
    (parseMarkdown "`a<b`" defaultOpts).html ≠
      "<p class=\"nb-md-paragraph\"><code class=\"nb-md-inline-code\">a&lt;b</code></p>" :=
  ⟨rfl, by decide⟩

/-- Claim C7: `generateId` lowercases, strips characters that are not word
characters, whitespace or hyphens, collapses whitespace runs to hyphens,
collapses hyphen runs, and trims edge hyphens; in particular
`generateId("Hello, World!") = "hello-world"`. -/
theorem C7_generateId_hello_world :
    generateId "Hello, World!" = "hello-world" :=
  rfl

/-- Claim C10: `parseMarkdown ""` returns empty html and empty
headings/links/images/codeBlocks; more generally, for input consisting only
of blank (whitespace-only) lines the html output is the empty string (empty
blocks are dropped and no empty `<p>` element is emitted). -/
theorem C10_empty_and_blank_input :
    (∀ opts : MarkdownParseOptions,
        parseMarkdown "" opts = ⟨"", ⟨[], [], [], []⟩⟩) ∧
    (∀ (s : String) (opts : MarkdownParseOptions),
        (∀ c ∈ s.data, isWsChar c = true) → (parseMarkdown s opts).html = "") := by
  constructor
  · intro opts
    exact parseMarkdown_blank "" opts (fun c hc => absurd hc (List.not_mem_nil c))
  · intro s opts hws
    rw [parseMarkdown_blank s opts hws]

/-- Witness for C10: a concrete blank-lines input evaluates to empty html.
-/
theorem C10_empty_and_blank_input_witness :
    (parseMarkdown "\n \n" defaultOpts).html = "" :=
  C10_empty_and_blank_input.2 "\n \n" defaultOpts (by decide)


/-- Claim C9: the result of `parseMarkdown` is independent of the `math` and
`sanitize` option values: two calls on the same input whose options agree on
`classPrefix`, `linksInNewTab` and `gfm` — and hence may differ only in
`math` and/or `sanitize` — return identical html and identical metadata (no
stage reads either flag). -/
theorem C9_math_sanitize_ignored (md : String) (o1 o2 : MarkdownParseOptions)
    (hp : o1.classPfx = o2.classPfx) (hl : o1.linksInNewTab = o2.linksInNewTab)
    (hg : o1.gfm = o2.gfm) :
    parseMarkdown md o1 = parseMarkdown md o2 := by
  obtain ⟨s1, l1, p1, g1, m1⟩ := o1
  obtain ⟨s2, l2, p2, g2, m2⟩ := o2
  have hp2 : p1 = p2 := hp
  have hl2 : l1 = l2 := hl
  have hg2 : g1 = g2 := hg
  subst hp2
  subst hl2
  subst hg2
  rfl

/-- Witness for C9: flipping `sanitize` off and `math` on leaves the result
of a concrete parse unchanged. -/
theorem C9_math_sanitize_ignored_witness :
    parseMarkdown "# hi *x*"
        (⟨false, true, "nb-md", true, true⟩ : MarkdownParseOptions) =
      parseMarkdown "# hi *x*"
        (⟨true, true, "nb-md", true, false⟩ : MarkdownParseOptions) :=
  C9_math_sanitize_ignored "# hi *x*" _ _ rfl rfl rfl

/-! Lemmas about `escapeHtml` for claim C8. -/

/-- The five characters replaced by `escapeHtml`. -/
def specialChars : List Char := ['&', '<', '>', '"', squote]

theorem escapeHtmlChar_self {c : Char} (h : c ∉ specialChars) :
    escapeHtmlChar c = [c] := by
  simp only [specialChars, List.mem_cons, List.mem_singleton, not_or] at h
  obtain ⟨h1, h2, h3, h4, h5⟩ := h
  simp [escapeHtmlChar, h1, h2, h3, h4, h5]

theorem escapeHtmlL_id : ∀ {l : List Char}, (∀ c ∈ l, c ∉ specialChars) →
    escapeHtmlL l = l
  | [], _ => rfl
  | c :: rest, h => by
      have h1 := escapeHtmlChar_self (h c (List.mem_cons_self _ _))
      have h2 := escapeHtmlL_id (fun x hx => h x (List.mem_cons_of_mem _ hx))
      simp only [escapeHtmlL, h1, h2, List.singleton_append]

theorem one_le_escapeHtmlChar_length (c : Char) :
    1 ≤ (escapeHtmlChar c).length := by
  unfold escapeHtmlChar
  repeat' split
  all_goals simp

theorem escapeHtmlL_length_ge : ∀ (l : List Char),
    l.length ≤ (escapeHtmlL l).length
  | [] => Nat.le_refl 0
  | c :: rest => by
      have h1 := one_le_escapeHtmlChar_length c
      have h2 := escapeHtmlL_length_ge rest
      simp only [escapeHtmlL, List.length_append, List.length_cons]
      omega

theorem four_le_escapeHtmlChar_length {c : Char} (h : c ∈ specialChars) :
    4 ≤ (escapeHtmlChar c).length := by
  simp only [specialChars, List.mem_cons, List.not_mem_nil, or_false] at h
  rcases h with h | h | h | h | h <;> rw [h] <;> decide

theorem amp_mem_escapeHtmlChar {c : Char} (h : c ∈ specialChars) :
    '&' ∈ escapeHtmlChar c := by
  simp only [specialChars, List.mem_cons, List.not_mem_nil, or_false] at h
  rcases h with h | h | h | h | h <;> rw [h] <;> decide

theorem escapeHtmlL_length_gt : ∀ {l : List Char},
    (∃ c ∈ l, c ∈ specialChars) → l.length < (escapeHtmlL l).length
  | [], h => absurd h (by simp)
  | c :: rest, h => by
      simp only [escapeHtmlL, List.length_append, List.length_cons]
      rcases h with ⟨d, hd, hds⟩
      rcases List.mem_cons.mp hd with h1 | h2
      · have h4 : 4 ≤ (escapeHtmlChar c).length :=
          four_le_escapeHtmlChar_length (h1 ▸ hds)
        have hr := escapeHtmlL_length_ge rest
        omega
      · have h1 := one_le_escapeHtmlChar_length c
        have hr := escapeHtmlL_length_gt ⟨d, h2, hds⟩
        omega

theorem amp_mem_escapeHtmlL {l : List Char} (h : ∃ c ∈ l, c ∈ specialChars) :
    '&' ∈ escapeHtmlL l := by
  induction l with
  | nil => simp at h
  | cons c rest ih =>
      rcases h with ⟨d, hd, hds⟩
      rcases List.mem_cons.mp hd with h1 | h2
      · exact List.mem_append.mpr (Or.inl (amp_mem_escapeHtmlChar (h1 ▸ hds)))
      · exact List.mem_append.mpr (Or.inr (ih ⟨d, h2, hds⟩))

/-- Claim C8: `escapeHtml` replaces exactly `& < > " '` with their HTML
entities, leaves strings without those characters unchanged, and is NOT
idempotent: for every string holding at least one special character,
escaping twice differs from escaping once (the first pass's ampersands are
escaped again). -/
theorem C8_escapeHtml_exact_and_not_idempotent :
    (escapeHtml "&" = "&amp;" ∧ escapeHtml "<" = "&lt;" ∧
      escapeHtml ">" = "&gt;" ∧ escapeHtml "\"" = "&quot;" ∧
      escapeHtml "\x27" = "&#39;") ∧
    (∀ s : String, (∀ c ∈ s.data, c ∉ specialChars) → escapeHtml s = s) ∧
    (∀ s : String, (∃ c ∈ s.data, c ∈ specialChars) →
      escapeHtml (escapeHtml s) ≠ escapeHtml s) := by
  refine ⟨⟨rfl, rfl, rfl, rfl, rfl⟩, ?_, ?_⟩
  · intro s h
    show (⟨escapeHtmlL s.data⟩ : String) = s
    rw [escapeHtmlL_id h]
  · intro s h hne
    have hamp : '&' ∈ (escapeHtml s).data := amp_mem_escapeHtmlL h
    have hgt : (escapeHtml s).data.length <
        (escapeHtmlL (escapeHtml s).data).length :=
      escapeHtmlL_length_gt ⟨'&', hamp, by decide⟩
    have hlen := congrArg (fun t : String => t.data.length) hne
    have hdq : (escapeHtml (escapeHtml s)).data =
        escapeHtmlL (escapeHtml s).data := rfl
    simp only at hlen
    rw [hdq] at hlen
    omega

/-- Witness for C8: a special-free string is a fixed point, and a string
holding `&` escapes non-idempotently. -/
theorem C8_escapeHtml_witness :
    escapeHtml "xyz" = "xyz" ∧
      escapeHtml (escapeHtml "a&b") ≠ escapeHtml "a&b" :=
  ⟨C8_escapeHtml_exact_and_not_idempotent.2.1 "xyz" (by decide),
    C8_escapeHtml_exact_and_not_idempotent.2.2 "a&b" (by decide)⟩


/-! Lemmas about the blockquote line loop for the amended claim C5. -/

theorem bqCollect_snd_length : ∀ (ls : List (List Char)),
    (bqCollect ls).2.length ≤ ls.length
  | [] => Nat.le_refl 0
  | l :: ls => by
      have ih := bqCollect_snd_length ls
      by_cases h : bqGuard l = true
      · simp only [bqCollect, if_pos h, List.length_cons]
        omega
      · simp only [bqCollect, if_neg h, List.length_cons]
        omega

theorem bqCollect_cons_snd (l : List Char) (ls : List (List Char))
    (h : bqGuard l = true) :
    (bqCollect (l :: ls)).2 = (bqCollect ls).2 := by
  simp only [bqCollect, if_pos h]

theorem bqCollect_run (run rest : List (List Char))
    (hrun : ∀ l ∈ run, bqGuard l = true)
    (hterm : rest = [] ∨ ∃ l ls, rest = l :: ls ∧ bqGuard l = false) :
    bqCollect (run ++ rest) = (run.map bqStrip, rest) := by
  induction run with
  | nil =>
      rcases hterm with h | ⟨l, ls, hrest, hg⟩
      · subst h; rfl
      · subst hrest
        simp [bqCollect, hg]
  | cons l run ih =>
      have hg := hrun l (List.mem_cons_self _ _)
      simp only [List.cons_append, List.map_cons, bqCollect, if_pos hg]
      rw [show bqCollect (run.append rest) = (run.map bqStrip, rest) from
        ih (fun x hx => hrun x (List.mem_cons_of_mem _ hx))]

/-- The blockquote line loop is insensitive to its fuel as long as the fuel
exceeds the number of lines (every iteration consumes at least one line). -/
theorem bqAux_congr (px : List Char) :
    ∀ (n : Nat) (ls : List (List Char)) (f g : Nat), ls.length ≤ n →
      ls.length < f → ls.length < g → bqAux px f ls = bqAux px g ls
  | _, [], f + 1, g + 1, _, _, _ => rfl
  | _, [], 0, _, _, hf, _ => absurd hf (Nat.not_lt_zero _)
  | _, [], _ + 1, 0, _, _, hg => absurd hg (Nat.not_lt_zero _)
  | _, _ :: _, 0, _, _, hf, _ => absurd hf (Nat.not_lt_zero _)
  | _, _ :: _, _ + 1, 0, _, _, hg => absurd hg (Nat.not_lt_zero _)
  | 0, l :: ls, _ + 1, _ + 1, hn, _, _ => absurd hn (by simp)
  | n + 1, l :: ls, f + 1, g + 1, hn, hf, hg => by
      simp only [List.length_cons] at hn hf hg
      by_cases h : (!l.isEmpty && l.take 1 == ['>']) = true
      · have hb : bqGuard l = true := by
          simp only [bqGuard]
          cases hA : (!l.isEmpty) <;> cases hB : (l.take 1 == ['>']) <;>
            simp_all
        have h2 := bqCollect_cons_snd l ls hb
        have hlen : (bqCollect (l :: ls)).2.length ≤ ls.length := by
          rw [h2]; exact bqCollect_snd_length ls
        simp only [bqAux, if_pos h]
        congr 1
        exact bqAux_congr px n (bqCollect (l :: ls)).2 f g
          (by omega) (by omega) (by omega)
      · simp only [bqAux, if_neg h]
        congr 1
        exact bqAux_congr px n ls f g (by omega) (by omega) (by omega)

/-- Claim C5 amended: a blockquote run begins at a nonempty line starting
with `>` and extends over the following lines that are nonempty AND either
start with `>` or are whitespace-only; the run produces exactly one
`<blockquote>` (the `>`-stripped lines joined and trimmed).  An EMPTY line
terminates the run (it is falsy in the loop guard), so only nonempty
whitespace-only lines survive as blank lines inside the quote. -/
theorem C5_blockquote_run_amended (px : List Char) (run rest : List (List Char))
    (hne : run ≠ [])
    (hhead : (run.headD []).take 1 = ['>'])
    (hrun : ∀ l ∈ run, l ≠ [] ∧ (l.take 1 = ['>'] ∨ trimL l = []))
    (hterm : rest = [] ∨ ∃ l ls, rest = l :: ls ∧
      (l = [] ∨ (l.take 1 ≠ ['>'] ∧ trimL l ≠ []))) :
    bqLines px (run ++ rest) = bqTag px (run.map bqStrip) :: bqLines px rest := by
  have hguard : ∀ l ∈ run, bqGuard l = true := by
    intro l hl
    obtain ⟨hl1, hl2⟩ := hrun l hl
    simp only [bqGuard, Bool.and_eq_true, Bool.or_eq_true]
    constructor
    · simpa [List.isEmpty_iff] using hl1
    · rcases hl2 with h | h
      · exact Or.inl (by simp [h])
      · exact Or.inr (by simp [List.isEmpty_iff, h])
  have hterm2 : rest = [] ∨ ∃ l ls, rest = l :: ls ∧ bqGuard l = false := by
    rcases hterm with h | ⟨l, ls, hrest, hcase⟩
    · exact Or.inl h
    · refine Or.inr ⟨l, ls, hrest, ?_⟩
      rcases hcase with h | ⟨h1, h2⟩
      · simp [bqGuard, h]
      · simp only [bqGuard, Bool.and_eq_false_iff, Bool.or_eq_false_iff]
        refine Or.inr ⟨?_, ?_⟩
        · simpa using h1
        · simpa [List.isEmpty_iff] using h2
  match run, hne with
  | r0 :: run2, _ =>
    have hg0 : (!r0.isEmpty && r0.take 1 == ['>']) = true := by
      have hh : r0.take 1 = ['>'] := hhead
      have hn0 : r0 ≠ [] := (hrun r0 (List.mem_cons_self _ _)).1
      simp [hh, List.isEmpty_iff, hn0]
    have hcol := bqCollect_run (r0 :: run2) rest hguard hterm2
    show bqAux px (((r0 :: run2) ++ rest).length + 1) ((r0 :: run2) ++ rest) = _
    rw [show ((r0 :: run2) ++ rest).length + 1 =
      ((run2 ++ rest).length + 1) + 1 from by simp]
    rw [show (r0 :: run2) ++ rest = r0 :: (run2 ++ rest) from rfl]
    simp only [bqAux, if_pos hg0]
    rw [show r0 :: (run2 ++ rest) = (r0 :: run2) ++ rest from rfl, hcol]
    simp only [bqLines]
    congr 1
    have hlr : rest.length ≤ run2.length + rest.length := by omega
    exact bqAux_congr px (run2.length + rest.length) rest
      ((run2 ++ rest).length + 1) (rest.length + 1)
      (by simp) (by simp; omega) (by omega)

/-- Witness for the amended C5 on a concrete run: two `>` lines with a
whitespace-only line between them, followed by a terminating line. -/
theorem C5_blockquote_run_amended_witness :
    bqLines "nb-md".data
        (["> a".data, " ".data, "> b".data] ++ ["x".data]) =
      bqTag "nb-md".data (["> a".data, " ".data, "> b".data].map bqStrip) ::
        bqLines "nb-md".data ["x".data] :=
  C5_blockquote_run_amended "nb-md".data _ _ (by decide) (by decide) (by decide)
    (Or.inr ⟨"x".data, [], rfl, Or.inr (by decide)⟩)


/-- Claim C6 amended: every inline code span is replaced by a `<code>`
element whose content is inserted RAW — the `$1` replacement performs no
HTML escaping (only fenced block bodies are escaped).  For any nonempty
backtick-free content, the inline pass on `` `content` `` emits the
`<code>` element with the content verbatim. -/
theorem C6_inline_code_raw_amended (px c : List Char) (hne : c ≠ [])
    (hnb : ∀ x ∈ c, x ≠ btick) :
    inlineCodePass px (btick :: (c ++ [btick])) =
      "<code class=\"".data ++ px ++ "-inline-code\">".data ++ c ++
        "</code>".data := by
  have ht : ((c ++ [btick]).takeWhile (fun x => x ≠ btick)) = c := by
    have hy : (fun x => decide (x ≠ btick)) btick = false := by simp
    exact takeWhile_all_append hy c (fun x hx => by simp [hnb x hx])
  have hd : ((c ++ [btick]).dropWhile (fun x => x ≠ btick)) = [btick] := by
    have hy : (fun x => decide (x ≠ btick)) btick = false := by simp
    exact dropWhile_all_append hy c (fun x hx => by simp [hnb x hx])
  show inlineAux px ((btick :: (c ++ [btick])).length + 1)
      (btick :: (c ++ [btick])) = _
  rw [show (btick :: (c ++ [btick])).length + 1 =
    ((c.length + 1) + 1) + 1 from by simp]
  simp only [inlineAux, ht, hd, if_pos rfl]
  rw [if_pos (⟨hne, rfl⟩ : c ≠ [] ∧ List.take 1 [btick] = [btick])]
  simp

/-- Witness for the amended C6: the span content `a<b` is emitted verbatim
(`<` raw, unescaped). -/
theorem C6_inline_code_raw_amended_witness :
    inlineCodePass "nb-md".data (btick :: ("a<b".data ++ [btick])) =
      "<code class=\"".data ++ "nb-md".data ++ "-inline-code\">".data ++
        "a<b".data ++ "</code>".data :=
  C6_inline_code_raw_amended "nb-md".data "a<b".data (by decide) (by decide)

end NotebookMd
